import Mathlib

/-!
Verification of the Real-Time Speech Transcription application.

This file gives a shallow embedding of the parts of the repository that the
verified properties talk about:

* the client-side audio capture and WebSocket code of
  `components/AudioRecorder.js` (`processAudioData`, the `onaudioprocess`
  callback, the `onMessage` result handler, the mode/language control
  messages), together with `handleTranscription` from `app/page.js`;
* the per-connection backend streaming pipeline (decoder, speech gate,
  window aggregator, dispatcher, output filter, emitter).  The backend
  sources (`server/main.py`, `server/main_whispercpp.py`) are not part of
  this checkout, so the pipeline is modelled from the specification's
  description of those components.

Audio sample values are modelled as rationals: every property proved here
is order-theoretic or structural and does not depend on IEEE-754 rounding.
-/

namespace RTST

/-- Model of a single audio sample value (a JS number holding a Float32). -/
abbrev Sample := ℚ

/-- Sample rate in Hz, from `components/AudioRecorder.js`:
`const SAMPLE_RATE = 16000`. -/
def SAMPLE_RATE : Nat := 16000

/-- Chunk duration in milliseconds, from `components/AudioRecorder.js`:
`const CHUNK_SIZE_MS = 300`. -/
def CHUNK_SIZE_MS : Nat := 300

/-- Samples per outbound frame, from `components/AudioRecorder.js`:
`Math.floor((SAMPLE_RATE * CHUNK_SIZE_MS) / 1000)`.  Natural-number
division is the floor. -/
def CHUNK_SIZE_SAMPLES : Nat := SAMPLE_RATE * CHUNK_SIZE_MS / 1000

/-- Byte size of the binary WebSocket payload built from a list of samples:
`new Float32Array(...).buffer` holds four bytes per sample. -/
def payloadBytes (msg : List Sample) : Nat := 4 * msg.length

/-- Model of `processAudioData` from `components/AudioRecorder.js`:
if at least `CHUNK_SIZE_SAMPLES` samples are buffered, the first
`CHUNK_SIZE_SAMPLES` samples form the outbound message (sent only when
`readyState === 1`) and are removed from the buffer by
`audioData.current.slice(CHUNK_SIZE_SAMPLES)`.  Returns the new buffer and
the message sent over the WebSocket, if any. -/
def processAudioData (readyState : Nat) (audioData : List Sample) :
    List Sample × Option (List Sample) :=
  if CHUNK_SIZE_SAMPLES ≤ audioData.length then
    (audioData.drop CHUNK_SIZE_SAMPLES,
      if readyState = 1 then some (audioData.take CHUNK_SIZE_SAMPLES) else none)
  else
    (audioData, none)

/-- Events that mutate the client audio buffer while recording:
the `onaudioprocess` callback pushes the captured block and immediately
calls `processAudioData`, and the fallback `setInterval` timer calls
`processAudioData` alone. -/
inductive RecorderEvent where
  | audio (inputData : List Sample)
  | timer

/-- Effect of one recorder event on the client audio buffer
(`audioData.current`). -/
def recorderStep (readyState : Nat) (buf : List Sample) :
    RecorderEvent → List Sample
  | RecorderEvent.audio d => (processAudioData readyState (buf ++ d)).1
  | RecorderEvent.timer => (processAudioData readyState buf).1

/-- Buffer contents after a sequence of recorder events. -/
def recorderRun (readyState : Nat) (buf : List Sample)
    (evs : List RecorderEvent) : List Sample :=
  evs.foldl (recorderStep readyState) buf

/-- Outbound result message from the backend, as parsed by the client's
`onMessage` handler: `{text, language, language_probability, mode}`. -/
structure ResultMessage where
  text : String
  language : String
  languageProbability : ℚ
  mode : String

/-- Whitespace test used by the model of JavaScript's `String.prototype.trim`
(ASCII whitespace characters; the Unicode cases behave identically for the
verified properties). -/
def isJsWhitespace (c : Char) : Bool :=
  c == ' ' || c == '\t' || c == '\n' || c == '\r' || c == '\x0b' || c == '\x0c'

/-- Model of JavaScript's `String.prototype.trim`: removes leading and
trailing whitespace. -/
def jsTrim (s : String) : String :=
  ⟨((s.data.dropWhile isJsWhitespace).reverse.dropWhile isJsWhitespace).reverse⟩

/-- Model of `handleTranscription` from `app/page.js`:
`setTranscription(prev => prev + ' ' + text)`. -/
def handleTranscription (prev text : String) : String := prev ++ " " ++ text

/-- Model of the `onMessage` WebSocket handler of
`components/AudioRecorder.js` composed with `handleTranscription`:
`if (data.text && data.text.trim()) onTranscription(data.text.trim())`.
The transcription state is updated only when the text is non-empty after
trimming. -/
def onMessage (transcription : String) (data : ResultMessage) : String :=
  if data.text ≠ "" ∧ jsTrim data.text ≠ "" then
    handleTranscription transcription (jsTrim data.text)
  else
    transcription

/-- JSON control message sent to the backend by the mode/language sync
effect of `components/AudioRecorder.js`: it carries exactly the fields
`mode` and `transcriptionLanguage`. -/
structure ControlMessage where
  mode : String
  transcriptionLanguage : String
deriving DecidableEq

/-- Client UI state relevant to control messages: the `mode` and
`transcriptionLanguage` React states of `app/page.js` and the WebSocket
`readyState`. -/
structure UiState where
  mode : String
  transcriptionLanguage : String
  readyState : Nat
deriving DecidableEq

/-- Initial UI state: `useState('transcription')`, `useState('en')`, and a
still-connecting WebSocket. -/
def initialUiState : UiState := ⟨"transcription", "en", 0⟩

/-- UI events that can change the control-message effect's dependencies:
the two mode-selector buttons, the two language-selector buttons
(`setMode('transcription'|'translation')`,
`setTranscriptionLanguage('en'|'de')` in `app/page.js`), and WebSocket
readyState transitions. -/
inductive UiEvent where
  | clickTranscription
  | clickTranslation
  | clickEnglish
  | clickGerman
  | wsOpen
  | wsClosed

/-- State change performed by one UI event. -/
def applyUiEvent (s : UiState) : UiEvent → UiState
  | UiEvent.clickTranscription => { s with mode := "transcription" }
  | UiEvent.clickTranslation => { s with mode := "translation" }
  | UiEvent.clickEnglish => { s with transcriptionLanguage := "en" }
  | UiEvent.clickGerman => { s with transcriptionLanguage := "de" }
  | UiEvent.wsOpen => { s with readyState := 1 }
  | UiEvent.wsClosed => { s with readyState := 3 }

/-- Events performed by the user (button clicks), as opposed to socket
state transitions. -/
def isUserChange : UiEvent → Bool
  | UiEvent.clickTranscription => true
  | UiEvent.clickTranslation => true
  | UiEvent.clickEnglish => true
  | UiEvent.clickGerman => true
  | UiEvent.wsOpen => false
  | UiEvent.wsClosed => false

/-- Model of the mode/language `useEffect` of `components/AudioRecorder.js`:
whenever one of its dependencies changes and `readyState === 1`, it sends
`JSON.stringify({mode, transcriptionLanguage})`. -/
def uiStep (s : UiState) (ev : UiEvent) : UiState × Option ControlMessage :=
  (applyUiEvent s ev,
    if applyUiEvent s ev ≠ s ∧ (applyUiEvent s ev).readyState = 1 then
      some ⟨(applyUiEvent s ev).mode, (applyUiEvent s ev).transcriptionLanguage⟩
    else none)

/-- Final UI state and all control messages sent over a sequence of UI
events. -/
def uiRun (s : UiState) : List UiEvent → UiState × List ControlMessage
  | [] => (s, [])
  | ev :: evs =>
    ((uiRun (uiStep s ev).1 evs).1,
      (uiStep s ev).2.toList ++ (uiRun (uiStep s ev).1 evs).2)

/-- Invariant on the UI state: the mode and language only ever hold the
values the selector buttons can set. -/
def validUi (s : UiState) : Prop :=
  (s.mode = "transcription" ∨ s.mode = "translation") ∧
  (s.transcriptionLanguage = "en" ∨ s.transcriptionLanguage = "de")

/-! ### Backend pipeline model

The backend sources (`server/main.py`, `server/main_whispercpp.py`) are not
part of this checkout; the following definitions are modelled from the
specification's description of the per-connection streaming pipeline
(§§3-4.6 of the spec). -/

/-- Modelled from the spec: §4.1/§7 - the error raised by the missing
backend's Sample Decoder on a frame whose byte length is not a multiple
of 4. -/
inductive MalformedFrameError where
  | malformed
deriving DecidableEq

/-- Little-endian 32-bit word value of four bytes. -/
def leWord (b0 b1 b2 b3 : Nat) : Nat :=
  b0 + 256 * b1 + 65536 * b2 + 16777216 * b3

/-- Modelled from the spec: §3 - the TranscriptEvent
`{text, language, confidence, mode}` produced by the missing backend's
Transcription Dispatcher. -/
structure TranscriptEvent where
  text : String
  language : String
  confidence : ℚ
  mode : String
deriving DecidableEq

/-- Modelled from the spec: tunable constants and external collaborators of
the missing backend pipeline.  `decodeSample` abstracts the IEEE-754 value
of one little-endian 32-bit word (§4.1); `energy` abstracts the RMS energy
measure (§4.2); `infer` is the opaque ASR engine interface of §6, taking
the window, language, task and decoding context and returning
`(text, language, probability)`. -/
structure PipelineConfig where
  decodeSample : Nat → Sample
  energy : List Sample → ℚ
  adaptiveMultiplier : ℚ
  hardFloor : ℚ
  alpha : ℚ
  targetLen : Nat
  overlapLen : Nat
  silenceResetThreshold : Nat
  minConfidence : ℚ
  denylist : List String
  maxContextChars : Nat
  infer : List Sample → String → String → String → String × String × ℚ

/-- Modelled from the spec: §4.1 - the Sample Decoder body; consecutive
groups of four bytes are decoded as little-endian 32-bit samples. -/
def decodeSamples (cfg : PipelineConfig) : List Nat → List Sample
  | b0 :: b1 :: b2 :: b3 :: rest =>
    cfg.decodeSample (leWord b0 b1 b2 b3) :: decodeSamples cfg rest
  | _ => []

/-- Modelled from the spec: §4.1 - the Sample Decoder contract; fails with
`MalformedFrameError` if the byte length is not a multiple of 4. -/
def decodeFrame (cfg : PipelineConfig) (frame : List Nat) :
    Except MalformedFrameError (List Sample) :=
  if frame.length % 4 = 0 then Except.ok (decodeSamples cfg frame)
  else Except.error MalformedFrameError.malformed

/-- Modelled from the spec: §3 - the SessionContext and Window Aggregator
state of the missing backend: rolling noise floor, silence run length,
window buffer, decoding context, last accepted output, mode and
language. -/
structure SessionState where
  noiseFloor : ℚ
  silenceRun : Nat
  window : List Sample
  priorText : String
  lastAccepted : String
  mode : String
  language : String

/-- Modelled from the spec: §4.2 - the Speech Gate; a chunk is speech when
its energy exceeds `noiseFloor × adaptiveMultiplier` and also exceeds the
hard silence floor. -/
def IsSpeech (cfg : PipelineConfig) (noiseFloor : ℚ) (chunk : List Sample) : Prop :=
  noiseFloor * cfg.adaptiveMultiplier < cfg.energy chunk ∧
    cfg.hardFloor < cfg.energy chunk

instance (cfg : PipelineConfig) (noiseFloor : ℚ) (chunk : List Sample) :
    Decidable (IsSpeech cfg noiseFloor chunk) :=
  instDecidableAnd

/-- Modelled from the spec: §9 - the noise-floor update as a pure function
`(oldFloor, chunkEnergy, wasSpeech) -> newFloor`: an exponentially-weighted
moving average updated only from chunks classified as silence. -/
def updateNoiseFloor (alpha old e : ℚ) (wasSpeech : Bool) : ℚ :=
  if wasSpeech then old else (1 - alpha) * old + alpha * e

/-- Noise floor after `n` silent chunks of constant energy `e`. -/
def iterFloor (alpha e : ℚ) : Nat → ℚ → ℚ
  | 0, old => old
  | n + 1, old => iterFloor alpha e n (updateNoiseFloor alpha old e false)

/-- Task parameter chosen from the session mode (§4.4). -/
def taskOfMode (mode : String) : String :=
  if mode = "translation" then "translate" else "transcribe"

/-- Last `n` characters of a string (bounded decoding context, §4.4). -/
def strTakeRight (s : String) (n : Nat) : String :=
  ⟨s.data.drop (s.data.length - n)⟩

/-- Trailing `n` samples of a window: the overlap segment carried into the
next window (§4.3). -/
def takeLast (l : List Sample) (n : Nat) : List Sample :=
  l.drop (l.length - n)

/-- Modelled from the spec: §4.5 - the Output Filter acceptance test;
discards empty or whitespace-only text, low confidence, exact repeats of
the previously accepted result, and denylist matches. -/
def acceptResult (cfg : PipelineConfig) (lastAccepted text : String)
    (confidence : ℚ) : Bool :=
  decide (jsTrim text ≠ "") && decide (cfg.minConfidence ≤ confidence) &&
    decide (text ≠ lastAccepted) && !(cfg.denylist.contains text)

/-- Modelled from the spec: §4.4/§4.6 - dispatch of a window to the ASR
engine, decoding-context update, output filtering, and emission; after the
dispatch the aggregator buffer is seeded with the trailing overlap segment
of the dispatched window.  Returns the new session state and the emitted
TranscriptEvents (empty when the result is filtered out). -/
def dispatchWindow (cfg : PipelineConfig) (st : SessionState) (w : List Sample) :
    SessionState × List TranscriptEvent :=
  ({ st with
      window := takeLast w cfg.overlapLen,
      priorText := strTakeRight
        (st.priorText ++ (cfg.infer w st.language (taskOfMode st.mode) st.priorText).1)
        cfg.maxContextChars,
      lastAccepted :=
        if acceptResult cfg st.lastAccepted
            (cfg.infer w st.language (taskOfMode st.mode) st.priorText).1
            (cfg.infer w st.language (taskOfMode st.mode) st.priorText).2.2 then
          (cfg.infer w st.language (taskOfMode st.mode) st.priorText).1
        else st.lastAccepted },
    if acceptResult cfg st.lastAccepted
        (cfg.infer w st.language (taskOfMode st.mode) st.priorText).1
        (cfg.infer w st.language (taskOfMode st.mode) st.priorText).2.2 then
      [⟨(cfg.infer w st.language (taskOfMode st.mode) st.priorText).1,
        (cfg.infer w st.language (taskOfMode st.mode) st.priorText).2.1,
        (cfg.infer w st.language (taskOfMode st.mode) st.priorText).2.2,
        st.mode⟩]
    else [])

/-- Modelled from the spec: §§4.2-4.3 - processing of one decoded chunk:
speech-gate classification, silence-run bookkeeping, noise-floor update
(silence only), window aggregation with full-window dispatch, context
reset once the silence run exceeds the threshold, and flush-on-silence of
the pending window at the threshold crossing.  Returns the new state, the
emitted events, and the windows dispatched by this step. -/
def stepChunk (cfg : PipelineConfig) (st : SessionState) (chunk : List Sample) :
    SessionState × List TranscriptEvent × List (List Sample) :=
  if IsSpeech cfg st.noiseFloor chunk then
    if cfg.targetLen ≤ (st.window ++ chunk).length then
      ((dispatchWindow cfg { st with silenceRun := 0, window := st.window ++ chunk }
          (st.window ++ chunk)).1,
        (dispatchWindow cfg { st with silenceRun := 0, window := st.window ++ chunk }
          (st.window ++ chunk)).2,
        [st.window ++ chunk])
    else
      ({ st with silenceRun := 0, window := st.window ++ chunk }, [], [])
  else
    if cfg.silenceResetThreshold < st.silenceRun + 1 then
      if st.silenceRun = cfg.silenceResetThreshold ∧ st.window ≠ [] then
        ((dispatchWindow cfg
            { st with
              noiseFloor := updateNoiseFloor cfg.alpha st.noiseFloor
                (cfg.energy chunk) false,
              silenceRun := st.silenceRun + 1,
              priorText := "" } st.window).1,
          (dispatchWindow cfg
            { st with
              noiseFloor := updateNoiseFloor cfg.alpha st.noiseFloor
                (cfg.energy chunk) false,
              silenceRun := st.silenceRun + 1,
              priorText := "" } st.window).2,
          [st.window])
      else
        ({ st with
            noiseFloor := updateNoiseFloor cfg.alpha st.noiseFloor
              (cfg.energy chunk) false,
            silenceRun := st.silenceRun + 1,
            priorText := "" }, [], [])
    else
      ({ st with
          noiseFloor := updateNoiseFloor cfg.alpha st.noiseFloor
            (cfg.energy chunk) false,
          silenceRun := st.silenceRun + 1 }, [], [])

/-- Modelled from the spec: §4.1/§7 - one inbound binary frame: a frame
that fails decoding is dropped (non-fatal) without touching the session
state; a decoded chunk goes through the speech gate and aggregator. -/
def processFrame (cfg : PipelineConfig) (st : SessionState) (frame : List Nat) :
    SessionState × List TranscriptEvent × List (List Sample) :=
  match decodeFrame cfg frame with
  | Except.error _ => (st, [], [])
  | Except.ok chunk => stepChunk cfg st chunk

/-- Whole-session run of the pipeline over a list of inbound frames,
collecting the emitted TranscriptEvents and the dispatched windows in
order. -/
def runPipeline (cfg : PipelineConfig) (st : SessionState) :
    List (List Nat) → SessionState × List TranscriptEvent × List (List Sample)
  | [] => (st, [], [])
  | f :: fs =>
    ((runPipeline cfg (processFrame cfg st f).1 fs).1,
      (processFrame cfg st f).2.1 ++ (runPipeline cfg (processFrame cfg st f).1 fs).2.1,
      (processFrame cfg st f).2.2 ++ (runPipeline cfg (processFrame cfg st f).1 fs).2.2)

/-- Overlap-chain property relative to a previously dispatched window:
each window in the list starts with the trailing overlap segment of its
predecessor. -/
def chainFrom (cfg : PipelineConfig) : List Sample → List (List Sample) → Prop
  | _, [] => True
  | w, w2 :: rest =>
    w2.take (takeLast w cfg.overlapLen).length = takeLast w cfg.overlapLen ∧
      chainFrom cfg w2 rest

/-- Overlap-chain property for a whole dispatched-window list. -/
def chainAll (cfg : PipelineConfig) : List (List Sample) → Prop
  | [] => True
  | w :: rest => chainFrom cfg w rest

/-- Fresh per-connection session state. -/
def initialSession : SessionState :=
  ⟨0, 0, [], "", "", "transcription", "en"⟩

/-- Concrete pipeline configuration used by witnesses: every chunk has
energy 1, which is above the thresholds (always speech); tiny window and
overlap lengths keep the runs small. -/
def cfgSpeech : PipelineConfig where
  decodeSample := fun w => (w : ℚ)
  energy := fun _ => 1
  adaptiveMultiplier := 0
  hardFloor := 0
  alpha := 1 / 2
  targetLen := 2
  overlapLen := 1
  silenceResetThreshold := 1
  minConfidence := 0
  denylist := []
  maxContextChars := 100
  infer := fun _ _ _ _ => ("ok", "en", 1)

/-! ### Ordered emission model -/

/-- Modelled from the spec: §5 ordering guarantee - per-connection emitter
state of the missing backend: the sequence number of the next result to
emit and the completed dispatches still awaiting emission. -/
structure EmitterState (α : Type) where
  next : Nat
  pending : List (Nat × α)

/-- First pending entry with the given sequence number. -/
def findSeq {α : Type} (n : Nat) : List (Nat × α) → Option α
  | [] => none
  | p :: rest => if p.1 = n then some p.2 else findSeq n rest

/-- Remove all pending entries with the given sequence number. -/
def removeSeq {α : Type} (n : Nat) (l : List (Nat × α)) : List (Nat × α) :=
  l.filter (fun q => decide (q.1 ≠ n))

/-- Modelled from the spec: §5 - the emitter drain loop: starting from the
next expected sequence number, emit consecutive pending results until one
is missing.  `fuel` bounds the loop; one pending entry is removed per
emission, so `pend.length` fuel always suffices. -/
def drainFuel {α : Type} : Nat → Nat → List (Nat × α) → List α × EmitterState α
  | 0, next, pend => ([], ⟨next, pend⟩)
  | fuel + 1, next, pend =>
    match findSeq next pend with
    | none => ([], ⟨next, pend⟩)
    | some e =>
      (e :: (drainFuel fuel (next + 1) (removeSeq next pend)).1,
        (drainFuel fuel (next + 1) (removeSeq next pend)).2)

/-- Modelled from the spec: §5 - arrival of one completed dispatch (its
dispatch sequence number and its result) at the emitter: buffer it, then
drain in order. -/
def emitStep {α : Type} (st : EmitterState α) (arrival : Nat × α) :
    EmitterState α × List α :=
  ((drainFuel (arrival :: st.pending).length st.next (arrival :: st.pending)).2,
    (drainFuel (arrival :: st.pending).length st.next (arrival :: st.pending)).1)

/-- Emitter run over a list of completion arrivals, collecting the emitted
results in order. -/
def emitRun {α : Type} (st : EmitterState α) :
    List (Nat × α) → EmitterState α × List α
  | [] => (st, [])
  | a :: as =>
    ((emitRun (emitStep st a).1 as).1,
      (emitStep st a).2 ++ (emitRun (emitStep st a).1 as).2)

/-- Fresh emitter state. -/
def initialEmitter {α : Type} : EmitterState α := ⟨0, []⟩

/-- Emitter invariant relative to the list `S` of dispatch sequence numbers
whose completions have arrived (`f` maps a sequence number to its
dispatched result): everything below `next` has arrived and been emitted,
`next` has not arrived, and the pending buffer holds exactly the arrived
results at or above `next`. -/
def EmitInv {α : Type} (f : Nat → α) (S : List Nat) (st : EmitterState α) : Prop :=
  (∀ i, i < st.next → i ∈ S) ∧
  st.next ∉ S ∧
  (∀ p : Nat × α, p ∈ st.pending ↔ p.1 ∈ S ∧ st.next ≤ p.1 ∧ p.2 = f p.1) ∧
  (st.pending.map Prod.fst).Nodup

/-- Concrete pipeline configuration used by witnesses: every chunk has
energy 0, below the hard silence floor (always silence). -/
def cfgQuiet : PipelineConfig where
  decodeSample := fun w => (w : ℚ)
  energy := fun _ => 0
  adaptiveMultiplier := 0
  hardFloor := 1
  alpha := 1 / 2
  targetLen := 2
  overlapLen := 1
  silenceResetThreshold := 1
  minConfidence := 0
  denylist := []
  maxContextChars := 100
  infer := fun _ _ _ _ => ("ok", "en", 1)

end RTST

namespace RTST

/-! ### Client-side theorems -/

theorem chunk_size_samples_eq : CHUNK_SIZE_SAMPLES = 4800 := by
  norm_num [CHUNK_SIZE_SAMPLES, SAMPLE_RATE, CHUNK_SIZE_MS]

/-- C3: every audio frame the client sends to the backend contains exactly
4,800 samples (300 ms at 16,000 Hz), i.e. a payload of exactly 19,200 bytes,
a multiple of 4; a frame is sent only when at least 4,800 samples have
accumulated, and exactly the sent samples are then removed from the
buffer. -/
theorem sent_frame_is_exact_chunk (readyState : Nat) (buf buf' msg : List Sample)
    (h : processAudioData readyState buf = (buf', some msg)) :
    CHUNK_SIZE_SAMPLES = 4800 ∧ msg.length = 4800 ∧ payloadBytes msg = 19200 ∧
    payloadBytes msg % 4 = 0 ∧ 4800 ≤ buf.length ∧ msg ++ buf' = buf := by
  have hC := chunk_size_samples_eq
  simp only [processAudioData] at h
  split at h
  case isTrue hlen =>
    split at h
    case isTrue hr =>
      have h1 : buf.drop CHUNK_SIZE_SAMPLES = buf' := congrArg Prod.fst h
      have h2' : buf.take CHUNK_SIZE_SAMPLES = msg :=
        Option.some.inj (congrArg Prod.snd h)
      have hmsgl : msg.length = 4800 := by
        rw [← h2', List.length_take, Nat.min_eq_left hlen, hC]
      refine ⟨hC, hmsgl, ?_, ?_, by omega, ?_⟩
      · simp [payloadBytes, hmsgl]
      · simp [payloadBytes, hmsgl]
      · rw [← h2', ← h1, List.take_append_drop]
    case isFalse hr => simp at h
  case isFalse hlen => simp at h

theorem sent_frame_is_exact_chunk_witness :
    CHUNK_SIZE_SAMPLES = 4800 ∧ (List.replicate 4800 (0 : Sample)).length = 4800 ∧
    payloadBytes (List.replicate 4800 (0 : Sample)) = 19200 ∧
    payloadBytes (List.replicate 4800 (0 : Sample)) % 4 = 0 ∧
    4800 ≤ (List.replicate 4800 (0 : Sample)).length ∧
    List.replicate 4800 (0 : Sample) ++ ([] : List Sample) =
      List.replicate 4800 (0 : Sample) :=
  sent_frame_is_exact_chunk 1 (List.replicate 4800 (0 : Sample)) []
    (List.replicate 4800 (0 : Sample))
    (by
      have hlen : CHUNK_SIZE_SAMPLES ≤ (List.replicate 4800 (0 : Sample)).length := by
        rw [List.length_replicate, chunk_size_samples_eq]
      rw [processAudioData, if_pos hlen, if_pos rfl, chunk_size_samples_eq,
        List.drop_replicate, List.take_replicate]
      norm_num)

/-- C4: an inbound result message whose text is empty or whitespace-only
leaves the displayed transcription unchanged; a message with non-whitespace
text appends the trimmed text to the transcript. -/
theorem whitespace_text_discarded (transcription : String) (data : ResultMessage) :
    (jsTrim data.text = "" → onMessage transcription data = transcription) ∧
    (jsTrim data.text ≠ "" →
      onMessage transcription data = transcription ++ " " ++ jsTrim data.text) := by
  constructor
  · intro h
    simp [onMessage, h]
  · intro h
    have ht : data.text ≠ "" := by
      intro he
      apply h
      rw [he]
      rfl
    simp [onMessage, handleTranscription, ht, h]

theorem whitespace_text_discarded_witness :
    onMessage "x" ⟨" \t ", "en", 1, "transcription"⟩ = "x" ∧
    onMessage "x" ⟨" hi ", "en", 1, "transcription"⟩ = "x" ++ " " ++ jsTrim " hi " :=
  ⟨(whitespace_text_discarded "x" ⟨" \t ", "en", 1, "transcription"⟩).1 (by decide),
   (whitespace_text_discarded "x" ⟨" hi ", "en", 1, "transcription"⟩).2 (by decide)⟩

/-- C9: when a full chunk is buffered but the WebSocket is not open
(`readyState ≠ 1`), `processAudioData` still removes the chunk from the
buffer without sending it: the audio is silently discarded. -/
theorem disconnected_chunk_discarded (readyState : Nat) (buf : List Sample)
    (hr : readyState ≠ 1) (hlen : CHUNK_SIZE_SAMPLES ≤ buf.length) :
    processAudioData readyState buf = (buf.drop CHUNK_SIZE_SAMPLES, none) := by
  simp [processAudioData, hlen, hr]

theorem disconnected_chunk_discarded_witness :
    processAudioData 0 (List.replicate 4800 (0 : Sample)) =
      ((List.replicate 4800 (0 : Sample)).drop CHUNK_SIZE_SAMPLES, none) :=
  disconnected_chunk_discarded 0 (List.replicate 4800 (0 : Sample)) (by decide)
    (by rw [List.length_replicate, chunk_size_samples_eq])

theorem processAudioData_length_lt (readyState : Nat) (buf : List Sample)
    (h : buf.length < CHUNK_SIZE_SAMPLES + 1024) :
    ((processAudioData readyState buf).1).length < CHUNK_SIZE_SAMPLES := by
  have hC := chunk_size_samples_eq
  simp only [processAudioData]
  split
  case isTrue hlen =>
    show (buf.drop CHUNK_SIZE_SAMPLES).length < CHUNK_SIZE_SAMPLES
    rw [List.length_drop]
    omega
  case isFalse hlen =>
    show buf.length < CHUNK_SIZE_SAMPLES
    omega

theorem recorderRun_length_lt (readyState : Nat) (evs : List RecorderEvent) :
    ∀ buf : List Sample, buf.length < CHUNK_SIZE_SAMPLES →
      (∀ d, RecorderEvent.audio d ∈ evs → d.length ≤ 1024) →
      (recorderRun readyState buf evs).length < CHUNK_SIZE_SAMPLES := by
  induction evs with
  | nil => intro buf hb _; exact hb
  | cons ev evs ih =>
    intro buf hb hIn
    have hstep : (recorderStep readyState buf ev).length < CHUNK_SIZE_SAMPLES := by
      cases ev with
      | audio d =>
        have hd : d.length ≤ 1024 := hIn d (List.mem_cons_self _ _)
        simp only [recorderStep]
        apply processAudioData_length_lt
        rw [List.length_append]
        omega
      | timer =>
        simp only [recorderStep]
        apply processAudioData_length_lt
        omega
    have hrun : recorderRun readyState buf (ev :: evs) =
        recorderRun readyState (recorderStep readyState buf ev) evs := rfl
    rw [hrun]
    exact ih _ hstep (fun d hd => hIn d (List.mem_cons_of_mem _ hd))

/-- C10: the client audio buffer is bounded.  Starting from the empty
buffer, after every completed `processAudioData` call the buffer holds
fewer than `CHUNK_SIZE_SAMPLES` samples, and pushing a block of at most
1,024 samples never takes it beyond `CHUNK_SIZE_SAMPLES + 1024` samples. -/
theorem client_buffer_bounded (readyState : Nat) (evs : List RecorderEvent)
    (h : ∀ d, RecorderEvent.audio d ∈ evs → d.length ≤ 1024) :
    (recorderRun readyState [] evs).length < CHUNK_SIZE_SAMPLES ∧
    ∀ buf d : List Sample, buf.length < CHUNK_SIZE_SAMPLES → d.length ≤ 1024 →
      (buf ++ d).length ≤ CHUNK_SIZE_SAMPLES + 1024 ∧
      ((processAudioData readyState (buf ++ d)).1).length < CHUNK_SIZE_SAMPLES := by
  constructor
  · exact recorderRun_length_lt readyState evs []
      (by simp [chunk_size_samples_eq]) h
  · intro buf d hb hd
    constructor
    · rw [List.length_append]; omega
    · apply processAudioData_length_lt
      rw [List.length_append]
      omega

theorem client_buffer_bounded_witness :
    (recorderRun 1 [] [RecorderEvent.timer]).length < CHUNK_SIZE_SAMPLES ∧
    ∀ buf d : List Sample, buf.length < CHUNK_SIZE_SAMPLES → d.length ≤ 1024 →
      (buf ++ d).length ≤ CHUNK_SIZE_SAMPLES + 1024 ∧
      ((processAudioData 1 (buf ++ d)).1).length < CHUNK_SIZE_SAMPLES :=
  client_buffer_bounded 1 [RecorderEvent.timer] (by intro d hd; simp at hd)

theorem validUi_apply (s : UiState) (ev : UiEvent) (h : validUi s) :
    validUi (applyUiEvent s ev) := by
  cases ev <;> simp only [applyUiEvent, validUi] at * <;> tauto

theorem uiStep_msg_valid (s : UiState) (ev : UiEvent) (m : ControlMessage)
    (hs : validUi s) (h : (uiStep s ev).2 = some m) :
    (m.mode = "transcription" ∨ m.mode = "translation") ∧
    (m.transcriptionLanguage = "en" ∨ m.transcriptionLanguage = "de") := by
  have hv := validUi_apply s ev hs
  simp only [uiStep] at h
  split at h
  · have hm := Option.some.inj h
    rw [← hm]
    exact ⟨hv.1, hv.2⟩
  · exact absurd h (by simp)

theorem uiRun_msgs_valid :
    ∀ (evs : List UiEvent) (s : UiState), validUi s →
      ∀ m ∈ (uiRun s evs).2,
        (m.mode = "transcription" ∨ m.mode = "translation") ∧
        (m.transcriptionLanguage = "en" ∨ m.transcriptionLanguage = "de") := by
  intro evs
  induction evs with
  | nil => intro s _ m hm; simp [uiRun] at hm
  | cons ev evs ih =>
    intro s hs m hm
    simp only [uiRun] at hm
    rcases List.mem_append.mp hm with hml | hmr
    · have hsome : (uiStep s ev).2 = some m := by
        cases h2 : (uiStep s ev).2 with
        | none => rw [h2] at hml; simp [Option.toList] at hml
        | some m' =>
          rw [h2] at hml
          simp only [Option.toList, List.mem_singleton] at hml
          rw [hml]
      exact uiStep_msg_valid s ev m hs hsome
    · exact ih (uiStep s ev).1 (validUi_apply s ev hs) m hmr

/-- C8: whenever the user changes mode or transcription language while the
WebSocket is open, the client sends a control message with the current
`mode` and `transcriptionLanguage`, and every control message ever sent
carries `mode ∈ {"transcription", "translation"}` and
`transcriptionLanguage ∈ {"en", "de"}`. -/
theorem control_messages_valid (evs : List UiEvent) :
    (∀ m ∈ (uiRun initialUiState evs).2,
      (m.mode = "transcription" ∨ m.mode = "translation") ∧
      (m.transcriptionLanguage = "en" ∨ m.transcriptionLanguage = "de")) ∧
    (∀ (s : UiState) (ev : UiEvent), isUserChange ev = true →
      applyUiEvent s ev ≠ s → (applyUiEvent s ev).readyState = 1 →
      (uiStep s ev).2 =
        some ⟨(applyUiEvent s ev).mode, (applyUiEvent s ev).transcriptionLanguage⟩) := by
  constructor
  · exact uiRun_msgs_valid evs initialUiState (by simp [initialUiState, validUi])
  · intro s ev _ hne hr
    simp only [uiStep]
    rw [if_pos ⟨hne, hr⟩]

theorem control_messages_valid_witness :
    ((⟨"translation", "en"⟩ : ControlMessage).mode = "transcription" ∨
      (⟨"translation", "en"⟩ : ControlMessage).mode = "translation") ∧
    ((⟨"translation", "en"⟩ : ControlMessage).transcriptionLanguage = "en" ∨
      (⟨"translation", "en"⟩ : ControlMessage).transcriptionLanguage = "de") :=
  (control_messages_valid [UiEvent.wsOpen, UiEvent.clickTranslation]).1
    ⟨"translation", "en"⟩ (by decide)

/-! ### Backend pipeline theorems -/

/-- C7: a frame whose byte length is not a multiple of 4 fails decoding
with `MalformedFrameError`, is dropped without touching the session state,
emits no TranscriptEvent, raises no connection-level failure, and the rest
of the session is processed exactly as if the bad frame had never
arrived. -/
theorem malformed_frame_dropped (cfg : PipelineConfig) (st : SessionState)
    (frame : List Nat) (rest : List (List Nat)) (h : ¬ frame.length % 4 = 0) :
    decodeFrame cfg frame = Except.error MalformedFrameError.malformed ∧
    processFrame cfg st frame = (st, [], []) ∧
    runPipeline cfg st (frame :: rest) = runPipeline cfg st rest := by
  have hd : decodeFrame cfg frame = Except.error MalformedFrameError.malformed := by
    simp [decodeFrame, h]
  have hp : processFrame cfg st frame = (st, [], []) := by
    simp [processFrame, hd]
  refine ⟨hd, hp, ?_⟩
  have hrun : runPipeline cfg st (frame :: rest) =
      ((runPipeline cfg (processFrame cfg st frame).1 rest).1,
        (processFrame cfg st frame).2.1 ++
          (runPipeline cfg (processFrame cfg st frame).1 rest).2.1,
        (processFrame cfg st frame).2.2 ++
          (runPipeline cfg (processFrame cfg st frame).1 rest).2.2) := rfl
  rw [hrun, hp]
  simp

theorem malformed_frame_dropped_witness :
    decodeFrame cfgSpeech [0] = Except.error MalformedFrameError.malformed ∧
    processFrame cfgSpeech initialSession [0] = (initialSession, [], []) ∧
    runPipeline cfgSpeech initialSession [[0]] = runPipeline cfgSpeech initialSession [] :=
  malformed_frame_dropped cfgSpeech initialSession [0] [] (by decide)

theorem stepChunk_silent (cfg : PipelineConfig) (st : SessionState)
    (chunk : List Sample) (hw : st.window = [])
    (hs : ¬ IsSpeech cfg st.noiseFloor chunk) :
    (stepChunk cfg st chunk).2.1 = [] ∧ (stepChunk cfg st chunk).1.window = [] := by
  simp only [stepChunk]
  rw [if_neg hs]
  split
  · split
    case isTrue hc => exact (hc.2 hw).elim
    case isFalse hc => simp [hw]
  · simp [hw]

theorem processFrame_silent (cfg : PipelineConfig) (st : SessionState)
    (frame : List Nat) (hw : st.window = [])
    (h : frame.length % 4 = 0 →
      cfg.energy (decodeSamples cfg frame) < cfg.hardFloor) :
    (processFrame cfg st frame).2.1 = [] ∧
      (processFrame cfg st frame).1.window = [] := by
  by_cases h4 : frame.length % 4 = 0
  · have he := h h4
    have hns : ¬ IsSpeech cfg st.noiseFloor (decodeSamples cfg frame) :=
      fun hsp => absurd hsp.2 (lt_asymm he)
    have hd : decodeFrame cfg frame = Except.ok (decodeSamples cfg frame) := by
      simp [decodeFrame, h4]
    simp only [processFrame, hd]
    exact stepChunk_silent cfg st _ hw hns
  · have hd : decodeFrame cfg frame = Except.error MalformedFrameError.malformed := by
      simp [decodeFrame, h4]
    simp only [processFrame, hd]
    exact ⟨trivial, hw⟩

/-- C1: a session whose every valid frame decodes to a chunk with energy
below the hard silence floor never emits a TranscriptEvent: zero outbound
result messages. -/
theorem silent_session_emits_nothing (cfg : PipelineConfig) (st : SessionState)
    (frames : List (List Nat)) (hw : st.window = [])
    (h : ∀ f ∈ frames, f.length % 4 = 0 →
      cfg.energy (decodeSamples cfg f) < cfg.hardFloor) :
    (runPipeline cfg st frames).2.1 = [] := by
  induction frames generalizing st with
  | nil => rfl
  | cons f fs ih =>
    have hp := processFrame_silent cfg st f hw (h f (List.mem_cons_self _ _))
    show (processFrame cfg st f).2.1 ++
      (runPipeline cfg (processFrame cfg st f).1 fs).2.1 = []
    rw [hp.1, List.nil_append]
    exact ih (processFrame cfg st f).1 hp.2
      (fun g hg => h g (List.mem_cons_of_mem _ hg))

theorem silent_session_emits_nothing_witness :
    (runPipeline cfgQuiet initialSession [[0, 0, 0, 0], [0, 0, 0, 0]]).2.1 = [] :=
  silent_session_emits_nothing cfgQuiet initialSession [[0, 0, 0, 0], [0, 0, 0, 0]]
    rfl (by intro f hf h4; fin_cases hf <;> norm_num [cfgQuiet])

theorem updateNoiseFloor_le (alpha o e : ℚ) (h0 : 0 < alpha) (h1 : alpha < 1)
    (ho : o ≤ e) :
    o ≤ updateNoiseFloor alpha o e false ∧ updateNoiseFloor alpha o e false ≤ e := by
  simp only [updateNoiseFloor, if_neg (by simp : ¬ false = true)]
  constructor
  · nlinarith [mul_nonneg (le_of_lt h0) (sub_nonneg.mpr ho)]
  · nlinarith [mul_nonneg (sub_nonneg.mpr (le_of_lt h1)) (sub_nonneg.mpr ho)]

theorem updateNoiseFloor_ge (alpha o e : ℚ) (h0 : 0 < alpha) (h1 : alpha < 1)
    (ho : e ≤ o) :
    e ≤ updateNoiseFloor alpha o e false ∧ updateNoiseFloor alpha o e false ≤ o := by
  simp only [updateNoiseFloor, if_neg (by simp : ¬ false = true)]
  constructor
  · nlinarith [mul_nonneg (sub_nonneg.mpr (le_of_lt h1)) (sub_nonneg.mpr ho)]
  · nlinarith [mul_nonneg (le_of_lt h0) (sub_nonneg.mpr ho)]

theorem iterFloor_mono (alpha e : ℚ) (h0 : 0 < alpha) (h1 : alpha < 1) :
    ∀ (n : Nat) (o : ℚ), o ≤ e →
      iterFloor alpha e n o ≤ iterFloor alpha e (n + 1) o ∧
        iterFloor alpha e n o ≤ e := by
  intro n
  induction n with
  | zero =>
    intro o ho
    refine ⟨?_, ho⟩
    show o ≤ iterFloor alpha e 0 (updateNoiseFloor alpha o e false)
    exact (updateNoiseFloor_le alpha o e h0 h1 ho).1
  | succ n ih =>
    intro o ho
    have hu := updateNoiseFloor_le alpha o e h0 h1 ho
    show iterFloor alpha e n (updateNoiseFloor alpha o e false) ≤
        iterFloor alpha e (n + 1) (updateNoiseFloor alpha o e false) ∧
      iterFloor alpha e n (updateNoiseFloor alpha o e false) ≤ e
    exact ih (updateNoiseFloor alpha o e false) hu.2

/-- C6: the rolling noise floor is updated only from chunks classified as
silence: a speech chunk leaves the update unchanged (both in the pure
update function and in the pipeline step), and under sustained silence of
constant energy `e` the estimate moves monotonically toward `e` without
overshooting. -/
theorem noise_floor_silence_only (cfg : PipelineConfig) (st : SessionState)
    (chunk : List Sample) (alpha old e : ℚ) (h0 : 0 < alpha) (h1 : alpha < 1) :
    updateNoiseFloor alpha old e true = old ∧
    (IsSpeech cfg st.noiseFloor chunk →
      (stepChunk cfg st chunk).1.noiseFloor = st.noiseFloor) ∧
    (old ≤ e → old ≤ updateNoiseFloor alpha old e false ∧
      updateNoiseFloor alpha old e false ≤ e) ∧
    (e ≤ old → e ≤ updateNoiseFloor alpha old e false ∧
      updateNoiseFloor alpha old e false ≤ old) ∧
    (old ≤ e → ∀ n, iterFloor alpha e n old ≤ iterFloor alpha e (n + 1) old ∧
      iterFloor alpha e n old ≤ e) := by
  refine ⟨rfl, ?_, updateNoiseFloor_le alpha old e h0 h1,
    updateNoiseFloor_ge alpha old e h0 h1,
    fun ho n => iterFloor_mono alpha e h0 h1 n old ho⟩
  intro hsp
  simp only [stepChunk]
  rw [if_pos hsp]
  split
  · simp [dispatchWindow]
  · simp

theorem noise_floor_silence_only_witness :
    updateNoiseFloor (1 / 2) 0 1 true = 0 ∧
    ((0 : ℚ) ≤ updateNoiseFloor (1 / 2) 0 1 false ∧
      updateNoiseFloor (1 / 2) 0 1 false ≤ 1) ∧
    iterFloor (1 / 2) 1 2 0 ≤ iterFloor (1 / 2) 1 3 0 :=
  have h := noise_floor_silence_only cfgSpeech initialSession [] (1 / 2) 0 1
    (by norm_num) (by norm_num)
  ⟨h.1, h.2.2.1 (by norm_num), (h.2.2.2.2 (by norm_num) 2).1⟩

theorem stepChunk_window_shape (cfg : PipelineConfig) (st : SessionState)
    (chunk : List Sample) :
    ((stepChunk cfg st chunk).2.2 = [] ∧
      ∃ ext, (stepChunk cfg st chunk).1.window = st.window ++ ext) ∨
    (∃ dw, (stepChunk cfg st chunk).2.2 = [dw] ∧
      (∃ ext, dw = st.window ++ ext) ∧
      (stepChunk cfg st chunk).1.window = takeLast dw cfg.overlapLen) := by
  simp only [stepChunk]
  by_cases hsp : IsSpeech cfg st.noiseFloor chunk
  · rw [if_pos hsp]
    by_cases htar : cfg.targetLen ≤ (st.window ++ chunk).length
    · rw [if_pos htar]
      right
      exact ⟨st.window ++ chunk, rfl, ⟨chunk, rfl⟩, by simp [dispatchWindow]⟩
    · rw [if_neg htar]
      left
      exact ⟨rfl, chunk, rfl⟩
  · rw [if_neg hsp]
    by_cases hth : cfg.silenceResetThreshold < st.silenceRun + 1
    · rw [if_pos hth]
      by_cases hfl : st.silenceRun = cfg.silenceResetThreshold ∧ st.window ≠ []
      · rw [if_pos hfl]
        right
        exact ⟨st.window, rfl, ⟨[], by simp⟩, by simp [dispatchWindow]⟩
      · rw [if_neg hfl]
        left
        exact ⟨rfl, [], by simp⟩
    · rw [if_neg hth]
      left
      exact ⟨rfl, [], by simp⟩

theorem processFrame_window_shape (cfg : PipelineConfig) (st : SessionState)
    (f : List Nat) :
    ((processFrame cfg st f).2.2 = [] ∧
      ∃ ext, (processFrame cfg st f).1.window = st.window ++ ext) ∨
    (∃ dw, (processFrame cfg st f).2.2 = [dw] ∧
      (∃ ext, dw = st.window ++ ext) ∧
      (processFrame cfg st f).1.window = takeLast dw cfg.overlapLen) := by
  cases hd : decodeFrame cfg f with
  | error e =>
    left
    simp only [processFrame, hd]
    exact ⟨trivial, [], by simp⟩
  | ok chunk =>
    have hpf : processFrame cfg st f = stepChunk cfg st chunk := by
      simp only [processFrame, hd]
    rw [hpf]
    exact stepChunk_window_shape cfg st chunk

theorem chainFrom_tail (cfg : PipelineConfig) (p : List Sample)
    (l : List (List Sample)) (h : chainFrom cfg p l) : chainAll cfg l := by
  cases l with
  | nil => trivial
  | cons x rest => exact h.2

theorem runPipeline_chainFrom (cfg : PipelineConfig) :
    ∀ (frames : List (List Nat)) (st : SessionState) (w : List Sample),
      (∃ rest, st.window = takeLast w cfg.overlapLen ++ rest) →
      chainFrom cfg w (runPipeline cfg st frames).2.2 := by
  intro frames
  induction frames with
  | nil => intro st w _; trivial
  | cons f fs ih =>
    intro st w hw
    obtain ⟨r0, hr0⟩ := hw
    have hrun : (runPipeline cfg st (f :: fs)).2.2 =
        (processFrame cfg st f).2.2 ++
          (runPipeline cfg (processFrame cfg st f).1 fs).2.2 := rfl
    rcases processFrame_window_shape cfg st f with ⟨hd, ext, hwin⟩ |
      ⟨dw, hd, ⟨ext, hdw⟩, hwin⟩
    · rw [hrun, hd, List.nil_append]
      exact ih _ w ⟨r0 ++ ext, by rw [hwin, hr0, List.append_assoc]⟩
    · rw [hrun, hd]
      show List.take (takeLast w cfg.overlapLen).length dw =
          takeLast w cfg.overlapLen ∧
        chainFrom cfg dw (runPipeline cfg (processFrame cfg st f).1 fs).2.2
      constructor
      · rw [hdw, hr0, List.append_assoc]
        exact List.take_left _ _
      · exact ih _ dw ⟨[], by rw [hwin, List.append_nil]⟩

theorem runPipeline_chainAll (cfg : PipelineConfig) :
    ∀ (frames : List (List Nat)) (st : SessionState),
      chainAll cfg (runPipeline cfg st frames).2.2 := by
  intro frames
  induction frames with
  | nil => intro st; trivial
  | cons f fs ih =>
    intro st
    have hrun : (runPipeline cfg st (f :: fs)).2.2 =
        (processFrame cfg st f).2.2 ++
          (runPipeline cfg (processFrame cfg st f).1 fs).2.2 := rfl
    rcases processFrame_window_shape cfg st f with ⟨hd, _, _⟩ |
      ⟨dw, hd, _, hwin⟩
    · rw [hrun, hd, List.nil_append]
      exact ih _
    · rw [hrun, hd]
      show chainFrom cfg dw (runPipeline cfg (processFrame cfg st f).1 fs).2.2
      exact runPipeline_chainFrom cfg fs _ dw ⟨[], by rw [hwin, List.append_nil]⟩

theorem chainAll_pair (cfg : PipelineConfig) :
    ∀ (pre : List (List Sample)) (w1 w2 : List Sample) (post : List (List Sample)),
      chainAll cfg (pre ++ w1 :: w2 :: post) →
      List.take (takeLast w1 cfg.overlapLen).length w2 = takeLast w1 cfg.overlapLen := by
  intro pre
  induction pre with
  | nil => intro w1 w2 post h; exact h.1
  | cons p pre ih =>
    intro w1 w2 post h
    exact ih w1 w2 post (chainFrom_tail cfg p _ h)

/-- C5: for every two consecutively dispatched windows of one session, the
trailing overlap segment of window N equals the leading samples of window
N+1. -/
theorem consecutive_windows_overlap (cfg : PipelineConfig) (st : SessionState)
    (frames : List (List Nat)) (pre post : List (List Sample)) (w1 w2 : List Sample)
    (h : (runPipeline cfg st frames).2.2 = pre ++ w1 :: w2 :: post) :
    List.take (takeLast w1 cfg.overlapLen).length w2 = takeLast w1 cfg.overlapLen := by
  have hall := runPipeline_chainAll cfg frames st
  rw [h] at hall
  exact chainAll_pair cfg pre w1 w2 post hall

theorem consecutive_windows_overlap_witness :
    List.take (takeLast [(1 : ℚ), 2] cfgSpeech.overlapLen).length [(2 : ℚ), 3] =
      takeLast [(1 : ℚ), 2] cfgSpeech.overlapLen :=
  consecutive_windows_overlap cfgSpeech initialSession
    [[1, 0, 0, 0], [2, 0, 0, 0], [3, 0, 0, 0], [4, 0, 0, 0]]
    [] [[3, 4]] [1, 2] [2, 3]
    (by
      norm_num [runPipeline, processFrame, decodeFrame, decodeSamples, leWord,
        stepChunk, dispatchWindow, IsSpeech, cfgSpeech, initialSession, takeLast,
        acceptResult, jsTrim, isJsWhitespace, strTakeRight, taskOfMode,
        updateNoiseFloor])

/-! ### Ordered emission theorems -/

theorem findSeq_none {α : Type} (n : Nat) :
    ∀ l : List (Nat × α), findSeq n l = none ↔ ∀ p ∈ l, p.1 ≠ n := by
  intro l
  induction l with
  | nil => simp [findSeq]
  | cons p rest ih =>
    by_cases hp : p.1 = n
    · simp only [findSeq, if_pos hp]
      constructor
      · intro h; exact Option.noConfusion h
      · intro h; exact absurd hp (h p (List.mem_cons_self _ _))
    · simp only [findSeq, if_neg hp]
      rw [ih]
      constructor
      · intro h q hq
        rcases List.mem_cons.mp hq with hq1 | hq2
        · rw [hq1]; exact hp
        · exact h q hq2
      · intro h q hq
        exact h q (List.mem_cons_of_mem _ hq)

theorem findSeq_some_mem {α : Type} (n : Nat) :
    ∀ (l : List (Nat × α)) (e : α), findSeq n l = some e → (n, e) ∈ l := by
  intro l
  induction l with
  | nil => intro e h; exact Option.noConfusion h
  | cons p rest ih =>
    intro e h
    by_cases hp : p.1 = n
    · simp only [findSeq, if_pos hp] at h
      have he : p.2 = e := Option.some.inj h
      have hpe : (n, e) = p := by rw [← hp, ← he]
      rw [hpe]
      exact List.mem_cons_self _ _
    · simp only [findSeq, if_neg hp] at h
      exact List.mem_cons_of_mem _ (ih e h)

theorem removeSeq_mem {α : Type} (n : Nat) (l : List (Nat × α)) (p : Nat × α) :
    p ∈ removeSeq n l ↔ p ∈ l ∧ p.1 ≠ n := by
  simp [removeSeq, List.mem_filter]

theorem removeSeq_length_lt {α : Type} (n : Nat) (l : List (Nat × α)) (e : α)
    (h : (n, e) ∈ l) : (removeSeq n l).length < l.length := by
  apply List.length_filter_lt_length_iff_exists.mpr
  exact ⟨(n, e), h, by simp⟩

theorem drainFuel_spec {α : Type} (f : Nat → α) :
    ∀ (fuel next : Nat) (pend : List (Nat × α)),
      (pend.map Prod.fst).Nodup →
      (∀ p ∈ pend, p.2 = f p.1) →
      pend.length ≤ fuel →
      ∃ k : Nat,
        (drainFuel fuel next pend).1 = (List.range' next k).map f ∧
        (drainFuel fuel next pend).2.next = next + k ∧
        (∀ i, next ≤ i → i < next + k → i ∈ pend.map Prod.fst) ∧
        (next + k) ∉ pend.map Prod.fst ∧
        (∀ p : Nat × α, p ∈ (drainFuel fuel next pend).2.pending ↔
          p ∈ pend ∧ ¬(next ≤ p.1 ∧ p.1 < next + k)) ∧
        List.Sublist (drainFuel fuel next pend).2.pending pend := by
  intro fuel
  induction fuel with
  | zero =>
    intro next pend hnd hgood hlen
    have hpend : pend = [] := List.length_eq_zero.mp (Nat.le_zero.mp hlen)
    subst hpend
    refine ⟨0, by simp [drainFuel], by simp [drainFuel], ?_, by simp, ?_,
      by simp [drainFuel]⟩
    · intro i h1 h2; omega
    · intro p; simp [drainFuel]
  | succ fuel ih =>
    intro next pend hnd hgood hlen
    cases hf : findSeq next pend with
    | none =>
      have hnot : next ∉ pend.map Prod.fst := by
        intro hmem
        obtain ⟨p, hp, hp1⟩ := List.mem_map.mp hmem
        exact (findSeq_none next pend).mp hf p hp hp1
      refine ⟨0, by simp [drainFuel, hf], by simp [drainFuel, hf], ?_, ?_, ?_, ?_⟩
      · intro i h1 h2; omega
      · simpa using hnot
      · intro p
        simp only [drainFuel, hf]
        constructor
        · intro hp; exact ⟨hp, by omega⟩
        · intro hp; exact hp.1
      · simp only [drainFuel, hf]
        exact List.Sublist.refl _
    | some e =>
      have hmem : (next, e) ∈ pend := findSeq_some_mem next pend e hf
      have he : e = f next := by
        have := hgood (next, e) hmem
        simpa using this
      have hrl : (removeSeq next pend).length < pend.length :=
        removeSeq_length_lt next pend e hmem
      have hrsub : List.Sublist (removeSeq next pend) pend :=
        List.filter_sublist _
      have hrnd : ((removeSeq next pend).map Prod.fst).Nodup :=
        hnd.sublist (hrsub.map Prod.fst)
      have hrgood : ∀ p ∈ removeSeq next pend, p.2 = f p.1 :=
        fun p hp => hgood p (hrsub.subset hp)
      have hrlen : (removeSeq next pend).length ≤ fuel := by omega
      obtain ⟨k, ho, hn, hin, hnotin, hpend2, hsub⟩ :=
        ih (next + 1) (removeSeq next pend) hrnd hrgood hrlen
      refine ⟨k + 1, ?_, ?_, ?_, ?_, ?_, ?_⟩
      · simp only [drainFuel, hf]
        rw [ho, he, List.range'_succ]
        simp
      · simp only [drainFuel, hf]
        rw [hn]
        omega
      · intro i h1 h2
        by_cases hi : i = next
        · rw [hi]
          exact List.mem_map.mpr ⟨(next, e), hmem, rfl⟩
        · have hi2 : i ∈ (removeSeq next pend).map Prod.fst :=
            hin i (by omega) (by omega)
          exact (hrsub.map Prod.fst).subset hi2
      · intro hc
        obtain ⟨p, hp, hp1⟩ := List.mem_map.mp hc
        apply hnotin
        refine List.mem_map.mpr ⟨p, ?_, by omega⟩
        refine (removeSeq_mem next pend p).mpr ⟨hp, ?_⟩
        omega
      · intro p
        simp only [drainFuel, hf]
        rw [hpend2 p, removeSeq_mem]
        constructor
        · rintro ⟨⟨hp, hne⟩, hno⟩
          exact ⟨hp, by omega⟩
        · rintro ⟨hp, hno⟩
          refine ⟨⟨hp, ?_⟩, ?_⟩ <;> omega
      · simp only [drainFuel, hf]
        exact hsub.trans hrsub

theorem emitStep_spec {α : Type} (f : Nat → α) (S : List Nat)
    (st : EmitterState α) (s : Nat) (hinv : EmitInv f S st) (hs : s ∉ S) :
    EmitInv f (s :: S) (emitStep st (s, f s)).1 ∧
    (List.range' 0 st.next).map f ++ (emitStep st (s, f s)).2 =
      (List.range' 0 (emitStep st (s, f s)).1.next).map f := by
  obtain ⟨hlow, hnext, hpend, hnd⟩ := hinv
  have hsge : st.next ≤ s := by
    by_contra hlt
    exact hs (hlow s (by omega))
  have hnd0 : (((s, f s) :: st.pending).map Prod.fst).Nodup := by
    rw [List.map_cons]
    refine List.nodup_cons.mpr ⟨?_, hnd⟩
    intro hc
    obtain ⟨p, hp, hp1⟩ := List.mem_map.mp hc
    apply hs
    have hmem := ((hpend p).mp hp).1
    rwa [hp1] at hmem
  have hgood0 : ∀ p ∈ (s, f s) :: st.pending, p.2 = f p.1 := by
    intro p hp
    rcases List.mem_cons.mp hp with hp1 | hp2
    · rw [hp1]
    · exact ((hpend p).mp hp2).2.2
  obtain ⟨k, ho, hn, hin, hnotin, hpend2, hsub⟩ :=
    drainFuel_spec f ((s, f s) :: st.pending).length st.next
      ((s, f s) :: st.pending) hnd0 hgood0 (le_refl _)
  simp only [emitStep]
  constructor
  · refine ⟨?_, ?_, ?_, ?_⟩
    · intro i hi
      rw [hn] at hi
      by_cases hlt : i < st.next
      · exact List.mem_cons_of_mem _ (hlow i hlt)
      · have hkey : i ∈ ((s, f s) :: st.pending).map Prod.fst :=
          hin i (by omega) (by omega)
        rw [List.map_cons] at hkey
        rcases List.mem_cons.mp hkey with h1 | h2
        · rw [h1]; exact List.mem_cons_self _ _
        · obtain ⟨p, hp, hp1⟩ := List.mem_map.mp h2
          have hmem := ((hpend p).mp hp).1
          rw [hp1] at hmem
          exact List.mem_cons_of_mem _ hmem
    · rw [hn]
      intro hc
      rcases List.mem_cons.mp hc with h1 | h2
      · apply hnotin
        rw [List.map_cons, h1]
        exact List.mem_cons_self _ _
      · apply hnotin
        have hpm : (st.next + k, f (st.next + k)) ∈ st.pending :=
          (hpend _).mpr ⟨h2, by omega, rfl⟩
        rw [List.map_cons]
        exact List.mem_cons_of_mem _ (List.mem_map.mpr ⟨_, hpm, rfl⟩)
    · intro p
      rw [hpend2 p, hn]
      constructor
      · rintro ⟨hp, hno⟩
        rcases List.mem_cons.mp hp with h1 | h2
        · have hp1 : p.1 = s := by rw [h1]
          refine ⟨?_, by omega, by rw [h1]⟩
          rw [hp1]
          exact List.mem_cons_self _ _
        · have hch := (hpend p).mp h2
          exact ⟨List.mem_cons_of_mem _ hch.1, by
            have := hch.2.1
            omega, hch.2.2⟩
      · rintro ⟨hmem, hge2, hv⟩
        rcases List.mem_cons.mp hmem with h1 | h2
        · have hp : p = (s, f s) := by
            have h2' : p.2 = f s := by rw [hv, h1]
            exact Prod.ext h1 h2'
          refine ⟨?_, by omega⟩
          rw [hp]
          exact List.mem_cons_self _ _
        · exact ⟨List.mem_cons_of_mem _ ((hpend p).mpr ⟨h2, by omega, hv⟩),
            by omega⟩
    · exact hnd0.sublist (hsub.map Prod.fst)
  · show (List.range' 0 st.next).map f ++
        (drainFuel ((s, f s) :: st.pending).length st.next
          ((s, f s) :: st.pending)).1 =
      (List.range' 0 (drainFuel ((s, f s) :: st.pending).length st.next
          ((s, f s) :: st.pending)).2.next).map f
    rw [ho, hn, ← List.map_append]
    congr 1
    have happ := List.range'_append 0 st.next k 1
    simp only [Nat.one_mul, Nat.zero_add] at happ
    rw [happ, Nat.add_comm k st.next]

theorem EmitInv_congr {α : Type} (f : Nat → α) (S T : List Nat)
    (st : EmitterState α) (h : ∀ x, x ∈ S ↔ x ∈ T) (hinv : EmitInv f S st) :
    EmitInv f T st := by
  obtain ⟨h1, h2, h3, h4⟩ := hinv
  refine ⟨fun i hi => (h i).mp (h1 i hi), fun hc => h2 ((h _).mpr hc), ?_, h4⟩
  intro p
  rw [h3 p]
  constructor
  · rintro ⟨ha, hb, hc⟩; exact ⟨(h _).mp ha, hb, hc⟩
  · rintro ⟨ha, hb, hc⟩; exact ⟨(h _).mpr ha, hb, hc⟩

theorem emitRun_spec {α : Type} (f : Nat → α) :
    ∀ (arrivals : List (Nat × α)) (S : List Nat) (st : EmitterState α),
      EmitInv f S st →
      (∀ p ∈ arrivals, p.2 = f p.1) →
      ((arrivals.map Prod.fst) ++ S).Nodup →
      EmitInv f ((arrivals.map Prod.fst) ++ S) (emitRun st arrivals).1 ∧
      (List.range' 0 st.next).map f ++ (emitRun st arrivals).2 =
        (List.range' 0 (emitRun st arrivals).1.next).map f := by
  intro arrivals
  induction arrivals with
  | nil =>
    intro S st hinv _ _
    exact ⟨by simpa using hinv, by simp [emitRun]⟩
  | cons a as ih =>
    intro S st hinv hgood hnd
    obtain ⟨s, e⟩ := a
    have he : e = f s := hgood (s, e) (List.mem_cons_self _ _)
    subst he
    have hnd' : (s :: (as.map Prod.fst ++ S)).Nodup := by
      have h1 : ((((s, f s) :: as).map Prod.fst) ++ S) =
          s :: (as.map Prod.fst ++ S) := by simp
      rwa [h1] at hnd
    have hsA : s ∉ S := fun hc =>
      (List.nodup_cons.mp hnd').1 (List.mem_append.mpr (Or.inr hc))
    have hstep := emitStep_spec f S st s hinv hsA
    have hnd2 : ((as.map Prod.fst) ++ (s :: S)).Nodup :=
      (List.perm_middle.nodup_iff).mpr hnd'
    have hrec := ih (s :: S) (emitStep st (s, f s)).1 hstep.1
      (fun p hp => hgood p (List.mem_cons_of_mem _ hp)) hnd2
    constructor
    · refine EmitInv_congr f ((as.map Prod.fst) ++ (s :: S)) _ _ ?_ hrec.1
      intro x
      constructor
      · intro hx
        rcases List.mem_append.mp hx with hx1 | hx2
        · exact List.mem_append.mpr (Or.inl (by simp; exact Or.inr (by simpa using hx1)))
        · rcases List.mem_cons.mp hx2 with hx3 | hx4
          · exact List.mem_append.mpr (Or.inl (by simp [hx3]))
          · exact List.mem_append.mpr (Or.inr hx4)
      · intro hx
        rcases List.mem_append.mp hx with hx1 | hx2
        · rcases List.mem_cons.mp (by simpa using hx1 :
            x ∈ s :: as.map Prod.fst) with hx3 | hx4
          · exact List.mem_append.mpr (Or.inr (List.mem_cons.mpr (Or.inl hx3)))
          · exact List.mem_append.mpr (Or.inl hx4)
        · exact List.mem_append.mpr (Or.inr (List.mem_cons.mpr (Or.inr hx2)))
    · show (List.range' 0 st.next).map f ++
        ((emitStep st (s, f s)).2 ++ (emitRun (emitStep st (s, f s)).1 as).2) =
        (List.range' 0 (emitRun (emitStep st (s, f s)).1 as).1.next).map f
      rw [← List.append_assoc, hstep.2]
      exact hrec.2

/-- C2: completed dispatches may arrive at the emitter in any order - in
particular, a later dispatch may complete before an earlier one - yet the
results are emitted in dispatch order, and the client, which appends each
received text to the displayed transcript via `onMessage`, therefore shows
results in dispatch order. -/
theorem events_emitted_in_dispatch_order (f : Nat → ResultMessage) (n : Nat)
    (arrivals : List (Nat × ResultMessage))
    (hkeys : (arrivals.map Prod.fst).Perm (List.range n))
    (hvals : ∀ p ∈ arrivals, p.2 = f p.1) :
    (emitRun initialEmitter arrivals).2 = (List.range n).map f ∧
    ∀ t0 : String,
      ((emitRun initialEmitter arrivals).2).foldl onMessage t0 =
        ((List.range n).map f).foldl onMessage t0 := by
  have hinv0 : EmitInv f [] (initialEmitter (α := ResultMessage)) := by
    refine ⟨?_, ?_, ?_, ?_⟩
    · intro i hi
      simp [initialEmitter] at hi
    · simp [initialEmitter]
    · intro p
      simp [initialEmitter]
    · simp [initialEmitter]
  have hnd : ((arrivals.map Prod.fst) ++ ([] : List Nat)).Nodup := by
    rw [List.append_nil]
    exact (hkeys.nodup_iff).mpr (List.nodup_range n)
  have hrun := emitRun_spec f arrivals [] initialEmitter hinv0 hvals hnd
  obtain ⟨⟨hlow, hnext, _, _⟩, hout⟩ := hrun
  have hmemS : ∀ x : Nat,
      (x ∈ arrivals.map Prod.fst ++ ([] : List Nat)) ↔ x < n := by
    intro x
    rw [List.append_nil, hkeys.mem_iff, List.mem_range]
  have hNn : (emitRun initialEmitter arrivals).1.next = n := by
    by_cases h1 : (emitRun initialEmitter arrivals).1.next < n
    · exact absurd ((hmemS _).mpr h1) hnext
    · by_cases h2 : n < (emitRun initialEmitter arrivals).1.next
      · have h3 := hlow n h2
        have h4 := (hmemS n).mp h3
        omega
      · omega
  have hfirst : (emitRun initialEmitter arrivals).2 = (List.range n).map f := by
    have h0 : (List.range' 0 (initialEmitter (α := ResultMessage)).next).map f
        = [] := by simp [initialEmitter]
    rw [h0, List.nil_append] at hout
    rw [hout, hNn, ← List.range_eq_range']
  exact ⟨hfirst, fun t0 => by rw [hfirst]⟩

theorem events_emitted_in_dispatch_order_witness :
    (emitRun initialEmitter
      [(1, (⟨"b", "en", 1, "transcription"⟩ : ResultMessage)),
        (0, (⟨"a", "en", 1, "transcription"⟩ : ResultMessage))]).2 =
      (List.range 2).map
        (fun i => if i = 0 then (⟨"a", "en", 1, "transcription"⟩ : ResultMessage)
          else ⟨"b", "en", 1, "transcription"⟩) :=
  (events_emitted_in_dispatch_order
    (fun i => if i = 0 then (⟨"a", "en", 1, "transcription"⟩ : ResultMessage)
      else ⟨"b", "en", 1, "transcription"⟩) 2
    [(1, ⟨"b", "en", 1, "transcription"⟩), (0, ⟨"a", "en", 1, "transcription"⟩)]
    (List.Perm.swap 0 1 [])
    (by intro p hp; fin_cases hp <;> rfl)).1

end RTST
